import Mathlib

/-! Mandelbrot bitmap generator: embedding of `src/main.cpp` and its properties.

The program is one `main` function.  Its pieces are embedded as follows.

* `double` values are rationals (`ℚ`): every finite double is a rational.  The program's
  own arithmetic rounds the exact result of every operation to binary64, to nearest
  with ties to even (`fl`); the loop and the sample points as the program computes
  them are `loopCondF`, `loopBodyF`, `whileLoopF`, `escapeTimeF`, `sampleXF`,
  `sampleYF`, and these are what `pixel` and `main` use.  The same loop and sample
  points with the operations taken exactly, without rounding, are `loopCond`,
  `loopBody`, `whileLoop`, `escapeTime`, `sampleX`, `sampleY`.
* `int` values are modelled as `Int`, every arithmetic result reduced to the 32-bit
  two's-complement range (`wrap32`); `/` is truncating division and has no result on
  a zero divisor.
* `unsigned char` values are naturals below 256 (`toUChar` reduces modulo 256).
* The output file is the list of bytes written to it, in order.  Console output and
  the final `getchar()` are not modelled.
-/

namespace Mandelbrot

/-! ## Escape-time loop (lines 108-119), operations taken exactly -/

/-- The variables the `while` loop of lines 113-119 reads and writes. -/
structure LoopState where
  x : ℚ
  y : ℚ
  iteration : Nat
deriving DecidableEq, Repr

/-- Line 113, `(x*x + y*y < 2.0*2.0) && (iteration < max_iteration)`, with the sum of
squares taken exactly (no rounding). -/
def loopCond (max_iteration : Nat) (s : LoopState) : Bool :=
  decide (s.x * s.x + s.y * s.y < 2.0 * 2.0) && decide (s.iteration < max_iteration)

/-- Lines 115-118, one execution of the loop body, with the operations taken exactly
(no rounding). -/
def loopBody (x0 y0 : ℚ) (s : LoopState) : LoopState :=
  let xtemp := (s.x * s.x - s.y * s.y) + x0
  let y := (2 * s.x * s.y) + y0
  { x := xtemp, y := y, iteration := s.iteration + 1 }

/-- Lines 113-119 in exact arithmetic: the `while` loop, started in state `s`; the
result is the state in which the loop condition is first found false. -/
def whileLoop (x0 y0 : ℚ) (max_iteration : Nat) (s : LoopState) : LoopState :=
  if h : loopCond max_iteration s = true then
    whileLoop x0 y0 max_iteration (loopBody x0 y0 s)
  else s
termination_by max_iteration - s.iteration
decreasing_by
  simp only [loopCond, Bool.and_eq_true, decide_eq_true_eq] at h
  simp only [loopBody]
  omega

/-- Lines 108-110: `x = 0.0; y = 0.0; iteration = 0;`. -/
def initState : LoopState := { x := 0.0, y := 0.0, iteration := 0 }

/-- Lines 108-119 in exact arithmetic: the value of `iteration` after the loop, for the
sample point `(x0, y0)` and the cap `max_iteration`. -/
def escapeTime (x0 y0 : ℚ) (max_iteration : Nat) : Nat :=
  (whileLoop x0 y0 max_iteration initState).iteration

/-! ## Reference orbit (from the wording of the contract) -/

/-- Reference orbit: `z_0 = (0,0)` and
`z_{k+1} = (x_k^2 - y_k^2 + x0, 2*x_k*y_k + y0)`. -/
def orbit (x0 y0 : ℚ) : Nat → ℚ × ℚ
  | 0 => (0, 0)
  | k + 1 => ((orbit x0 y0 k).1 ^ 2 - (orbit x0 y0 k).2 ^ 2 + x0,
              2 * (orbit x0 y0 k).1 * (orbit x0 y0 k).2 + y0)

/-- Squared magnitude `x^2 + y^2` of an orbit point. -/
def normSq (z : ℚ × ℚ) : ℚ := z.1 ^ 2 + z.2 ^ 2

/-! ## Escape-time loop (lines 108-119) in binary64, as the program runs it -/

/-- Nearest integer to `r`, the even one of the two when `r` is half way between. -/
def roundHalfEven (r : ℚ) : ℤ :=
  if r - ⌊r⌋ < 1 / 2 then ⌊r⌋
  else if 1 / 2 < r - ⌊r⌋ then ⌊r⌋ + 1
  else if ⌊r⌋ % 2 = 0 then ⌊r⌋ else ⌊r⌋ + 1

/-- Exponent `e` of the binary64 binade of `q`: `2^e <= |q| < 2^(e+1)`, and -1022 for
the subnormal range and zero. -/
def binade (q : ℚ) : ℤ := max (Int.log 2 |q|) (-1022)

/-- Rounding of an exact result to binary64: the nearest multiple of `2^(e-52)`, with
53 significant bits, ties to even.  The exponent range is not bounded above: where
binary64 gives an infinity the model has a finite value of at least `2^1024`; the loop
only compares such a value with 4, with the same outcome. -/
def fl (q : ℚ) : ℚ := (roundHalfEven (q / 2 ^ (binade q - 52)) : ℚ) * 2 ^ (binade q - 52)

/-- Line 113 as executed: `(x*x + y*y < 2.0*2.0) && (iteration < max_iteration)`, each
product and the sum rounded to binary64. -/
def loopCondF (max_iteration : Nat) (s : LoopState) : Bool :=
  decide (fl (fl (s.x * s.x) + fl (s.y * s.y)) < fl (2.0 * 2.0))
    && decide (s.iteration < max_iteration)

/-- Lines 115-118 as executed: one run of the loop body, each operation rounded to
binary64 (`2*x*y` is `(2*x)*y`). -/
def loopBodyF (x0 y0 : ℚ) (s : LoopState) : LoopState :=
  let xtemp := fl (fl (fl (s.x * s.x) - fl (s.y * s.y)) + x0)
  let y := fl (fl (fl (2 * s.x) * s.y) + y0)
  { x := xtemp, y := y, iteration := s.iteration + 1 }

/-- Lines 113-119 as executed: the `while` loop, started in state `s`; the result is
the state in which the loop condition is first found false. -/
def whileLoopF (x0 y0 : ℚ) (max_iteration : Nat) (s : LoopState) : LoopState :=
  if h : loopCondF max_iteration s = true then
    whileLoopF x0 y0 max_iteration (loopBodyF x0 y0 s)
  else s
termination_by max_iteration - s.iteration
decreasing_by
  simp only [loopCondF, Bool.and_eq_true, decide_eq_true_eq] at h
  simp only [loopBodyF]
  omega

/-- Lines 108-119 as executed: the value of `iteration` after the loop, for the sample
point `(x0, y0)` and the cap `max_iteration`. -/
def escapeTimeF (x0 y0 : ℚ) (max_iteration : Nat) : Nat :=
  (whileLoopF x0 y0 max_iteration initState).iteration

/-- Reference orbit in the program's arithmetic: `z_0 = (0,0)` and
`z_{k+1} = (x_k^2 - y_k^2 + x0, 2*x_k*y_k + y0)`, every operation rounded to
binary64. -/
def orbitF (x0 y0 : ℚ) : Nat → ℚ × ℚ
  | 0 => (0, 0)
  | k + 1 =>
    (fl (fl (fl ((orbitF x0 y0 k).1 * (orbitF x0 y0 k).1)
              - fl ((orbitF x0 y0 k).2 * (orbitF x0 y0 k).2)) + x0),
     fl (fl (fl (2 * (orbitF x0 y0 k).1) * (orbitF x0 y0 k).2) + y0))

/-- Squared magnitude `x^2 + y^2` of an orbit point, every operation rounded to
binary64. -/
def normSqF (z : ℚ × ℚ) : ℚ := fl (fl (z.1 * z.1) + fl (z.2 * z.2))

/-- The binary64 value `-0x1.f8f03f8220b3fp+0`, about -1.97241. -/
def nearCircleX : ℚ := -(0x1f8f03f8220b3f : ℚ) / 2 ^ 52

/-- The binary64 value `0x1.52f76bb3c5864p-2`, about 0.33102. -/
def nearCircleY : ℚ := (0x152f76bb3c5864 : ℚ) / 2 ^ 54

/-! ## 32-bit `int` arithmetic and the cast to `unsigned char` -/

/-- Reduction of an integer to the 32-bit two's-complement range. -/
def wrap32 (z : Int) : Int := (z + 2147483648) % 4294967296 - 2147483648

/-- `int` addition. -/
def iadd (a b : Int) : Int := wrap32 (a + b)

/-- `int` subtraction. -/
def isub (a b : Int) : Int := wrap32 (a - b)

/-- `int` multiplication. -/
def imul (a b : Int) : Int := wrap32 (a * b)

/-- `int` division: truncating, and without a result when the divisor is zero. -/
def idiv (a b : Int) : Option Int :=
  if b = 0 then none else some (wrap32 (Int.tdiv a b))

/-- The cast `(unsigned char)` of an `int`. -/
def toUChar (z : Int) : Nat := (z % 256).toNat

/-! ## Palette branches (lines 122-144) -/

/-- Lines 125, 132, 139: the three bytes written for a point that reached the cap. -/
def black : List Nat := [toUChar 0x00, toUChar 0x00, toUChar 0x00]

/-- Line 127: the `else` branch of colour scheme 1. -/
def palette1 (i j : Int) : Option (List Nat) := do
  let q1 ← idiv j (iadd j 1)
  let q2 ← idiv (imul (← idiv i 3) j) (iadd i 1)
  pure [toUChar (iadd i q1), toUChar (iadd (iadd i j) q2), toUChar 0x50]

/-- Line 134: the `else` branch of colour scheme 2. -/
def palette2 (i j iteration : Int) : Option (List Nat) := do
  let q1 ← idiv (imul (imul j iteration) i) 5255
  let q2 ← idiv (imul (imul i i) iteration) 31250
  let q3 ← idiv (imul i iteration) 51250
  pure [toUChar (isub q1 5), toUChar (isub q2 52), toUChar q3]

/-- Line 140: the `else` branch of colour scheme 3. -/
def palette3 (i j iteration : Int) : Option (List Nat) := do
  let q1 ← idiv (imul j iteration) 17855
  let q2 ← idiv (imul (imul i j) iteration) 312500
  let q3 ← idiv (imul i iteration) 31250
  pure [toUChar (isub (imul (isub 255 q1) j) (imul 4 i)),
        toUChar (isub 255 q2), toUChar (isub 255 q3)]

/-- Lines 122-144: the bytes written for one pixel by the three consecutive
`if (color_scheme == ...)` statements. -/
def emitPixel (color_scheme i j iteration max_iteration : Int) : Option (List Nat) := do
  let b1 ← if color_scheme = 1 then
      (if iteration = max_iteration then pure black else palette1 i j)
    else pure []
  let b2 ← if color_scheme = 2 then
      (if iteration = max_iteration then pure black else palette2 i j iteration)
    else pure []
  let b3 ← if color_scheme = 3 then
      (if iteration = max_iteration then pure black else palette3 i j iteration)
    else pure []
  pure (b1 ++ b2 ++ b3)

/-! ## Headers (lines 37-58) -/

/-- Lines 37-43. -/
def bmp_header : List Nat :=
  [0x42, 0x4D,
   0x76, 0xF3, 0x89, 0x06,
   0x00, 0x00,
   0x00, 0x00,
   0x36, 0x00, 0x00, 0x00]

/-- Lines 46-58. -/
def dib_header : List Nat :=
  [0x28, 0x00, 0x00, 0x00,
   0x40, 0x1F, 0x00, 0x00,
   0xDB, 0x11, 0x00, 0x00,
   0x01, 0x00,
   0x18, 0x00,
   0x00, 0x00, 0x00, 0x00,
   0x40, 0xF3, 0x89, 0x06,
   0x13, 0x0B, 0x00, 0x00,
   0x13, 0x0B, 0x00, 0x00,
   0x00, 0x00, 0x00, 0x00,
   0x00, 0x00, 0x00, 0x00]

/-! ## Pixel loops and the whole run (lines 60-157) -/

/-- Line 106, `x0 = (((i * 3.5) / 7999.0) - 2.5)`, in exact arithmetic. -/
def sampleX (i : Nat) : ℚ := (((i : ℚ) * 3.5) / 7999.0) - 2.5

/-- Line 107, `y0 = (((j * 2.0) / 4570.0) - 1.0)`, in exact arithmetic. -/
def sampleY (j : Nat) : ℚ := (((j : ℚ) * 2.0) / 4570.0) - 1.0

/-- Line 106 as executed: `x0 = (((i * 3.5) / 7999.0) - 2.5)`, each operation rounded
to binary64. -/
def sampleXF (i : Nat) : ℚ := fl (fl (fl ((i : ℚ) * 3.5) / 7999.0) - 2.5)

/-- Line 107 as executed: `y0 = (((j * 2.0) / 4570.0) - 1.0)`, each operation rounded
to binary64. -/
def sampleYF (j : Nat) : ℚ := fl (fl (fl ((j : ℚ) * 2.0) / 4570.0) - 1.0)

/-- Lines 106-144: the body of the inner loop for row `j` and column `i`; the result
is the bytes it writes. -/
def pixel (color_scheme : Int) (j i : Nat) : Option (List Nat) :=
  let x0 := sampleXF i
  let y0 := sampleYF j
  let max_iteration : Nat := 1000
  let iteration := escapeTimeF x0 y0 max_iteration
  emitPixel color_scheme i j iteration max_iteration

/-- A loop `for (k = 0; k < n; k++)` whose body writes bytes: the bytes written by
the whole loop, in order, or nothing when some execution of the body has no result. -/
def forEmit : Nat → (Nat → Option (List Nat)) → Option (List Nat)
  | 0, _ => some []
  | n + 1, body => do
    let earlier ← forEmit n body
    let last ← body n
    pure (earlier ++ last)

/-- What a run leaves behind: the name of the output file, the bytes written to it
and the value returned by `main`. -/
structure Run where
  file_name : String
  written : List Nat
  exitCode : Int
deriving DecidableEq, Repr

/-- Lines 66-157 for a given `color_scheme`; `opens` says whether `image.is_open()`
holds after line 74. -/
def runWith (color_scheme : Int) (opens : Bool) : Option Run :=
  let file_name := "mandelbrot_" ++ toString color_scheme ++ ".bmp"
  if !opens then
    some { file_name := file_name, written := [], exitCode := 20 }
  else do
    let pixels ← forEmit 4571 (fun j => forEmit 8000 (fun i => pixel color_scheme j i))
    pure { file_name := file_name, written := bmp_header ++ dib_header ++ pixels,
           exitCode := 0 }

/-- The program: `seed` is the clock value of line 61, which only feeds the random
engine; the draw of line 64 is commented out and `color_scheme` is 3. -/
def main (seed : Nat) (opens : Bool) : Option Run :=
  let _generator := seed
  let color_scheme : Int := 3
  runWith color_scheme opens

/-- Little-endian 32-bit field of a byte list at offset `off`. -/
def le32 (bs : List Nat) (off : Nat) : Nat :=
  bs.getD off 0 + 256 * bs.getD (off + 1) 0 + 65536 * bs.getD (off + 2) 0
    + 16777216 * bs.getD (off + 3) 0

/-- Little-endian 16-bit field of a byte list at offset `off`. -/
def le16 (bs : List Nat) (off : Nat) : Nat :=
  bs.getD off 0 + 256 * bs.getD (off + 1) 0

/-- Row stride the bitmap format requires for 24-bit pixels, in the words of the design
note on row padding: `3 * width` rounded up to a multiple of 4. -/
def rowStride (width : Nat) : Nat := (3 * width + 3) / 4 * 4

/-! ## The escape-time loop -/

theorem iterate_iteration (x0 y0 : ℚ) (s : LoopState) (k : Nat) :
    ((loopBody x0 y0)^[k] s).iteration = s.iteration + k := by
  induction k with
  | zero => simp
  | succ k ih =>
    rw [Function.iterate_succ_apply']
    simp only [loopBody, ih]
    omega

theorem iterate_orbit (x0 y0 : ℚ) (k : Nat) :
    (((loopBody x0 y0)^[k] initState).x, ((loopBody x0 y0)^[k] initState).y)
      = orbit x0 y0 k := by
  induction k with
  | zero => norm_num [initState, orbit]
  | succ k ih =>
    rw [Function.iterate_succ_apply']
    have hx := congrArg Prod.fst ih
    have hy := congrArg Prod.snd ih
    simp only at hx hy
    simp only [loopBody, orbit, ← hx, ← hy, Prod.mk.injEq, and_true]
    rw [pow_two, pow_two]

/-- The loop result is the body iterated some number of times on the start state, the
condition holding before each of these executions and failing after the last. -/
theorem whileLoop_iterate (x0 y0 : ℚ) (cap : Nat) (s : LoopState) :
    ∃ m, whileLoop x0 y0 cap s = (loopBody x0 y0)^[m] s
      ∧ (∀ k, k < m → loopCond cap ((loopBody x0 y0)^[k] s) = true)
      ∧ loopCond cap (whileLoop x0 y0 cap s) = false := by
  induction s using whileLoop.induct x0 y0 cap with
  | case1 s h ih =>
    obtain ⟨m, hm, hk, hf⟩ := ih
    rw [whileLoop, dif_pos h]
    refine ⟨m + 1, ?_, ?_, hf⟩
    · rw [hm, Function.iterate_succ_apply]
    · intro k hk1
      cases k with
      | zero => simpa using h
      | succ k =>
        rw [Function.iterate_succ_apply]
        exact hk k (by omega)
  | case2 s h =>
    rw [whileLoop, dif_neg h]
    exact ⟨0, rfl, fun k hk => absurd hk (Nat.not_lt_zero k), by simpa using h⟩

theorem escapeTime_iterate (x0 y0 : ℚ) (cap : Nat) :
    whileLoop x0 y0 cap initState = (loopBody x0 y0)^[escapeTime x0 y0 cap] initState
      ∧ (∀ k, k < escapeTime x0 y0 cap →
          loopCond cap ((loopBody x0 y0)^[k] initState) = true)
      ∧ loopCond cap (whileLoop x0 y0 cap initState) = false := by
  obtain ⟨m, hm, hk, hf⟩ := whileLoop_iterate x0 y0 cap initState
  have hn : escapeTime x0 y0 cap = m := by
    unfold escapeTime
    rw [hm, iterate_iteration]
    simp [initState]
  rw [hn]
  exact ⟨hm, hk, hf⟩

theorem loopCond_true_iff (cap : Nat) (s : LoopState) :
    loopCond cap s = true ↔ s.x ^ 2 + s.y ^ 2 < 4 ∧ s.iteration < cap := by
  simp only [loopCond, Bool.and_eq_true, decide_eq_true_eq]
  constructor
  · rintro ⟨h1, h2⟩
    exact ⟨by norm_num at h1; nlinarith, h2⟩
  · rintro ⟨h1, h2⟩
    exact ⟨by norm_num; nlinarith, h2⟩

theorem escapeTime_le (x0 y0 : ℚ) (cap : Nat) : escapeTime x0 y0 cap ≤ cap := by
  obtain ⟨_, hk, _⟩ := escapeTime_iterate x0 y0 cap
  by_contra hlt
  have hpos : 0 < escapeTime x0 y0 cap := by omega
  have h := hk (escapeTime x0 y0 cap - 1) (by omega)
  rw [loopCond_true_iff, iterate_iteration] at h
  simp only [initState] at h
  omega

theorem loopCond_false_iff (cap : Nat) (s : LoopState) :
    loopCond cap s = false ↔ 4 ≤ s.x ^ 2 + s.y ^ 2 ∨ cap ≤ s.iteration := by
  rw [← Bool.not_eq_true, loopCond_true_iff, not_and_or, not_lt, not_lt]

theorem iterate_normSq (x0 y0 : ℚ) (k : Nat) :
    ((loopBody x0 y0)^[k] initState).x ^ 2 + ((loopBody x0 y0)^[k] initState).y ^ 2
      = normSq (orbit x0 y0 k) := by
  rw [← iterate_orbit, normSq]

/-- In exact arithmetic, for every sample point and every cap, the loop returns `n`
such that every exact orbit point `z_k` with `k < n` is inside the escape radius
(`x_k^2 + y_k^2 < 4`), and either `n < cap` and `z_n` has reached the radius
(`x_n^2 + y_n^2 >= 4`), or `n = cap`. -/
theorem escapeTime_exact_first_escape (x0 y0 : ℚ) (cap : Nat) :
    (∀ k, k < escapeTime x0 y0 cap → normSq (orbit x0 y0 k) < 4)
      ∧ ((escapeTime x0 y0 cap < cap ∧ 4 ≤ normSq (orbit x0 y0 (escapeTime x0 y0 cap)))
          ∨ escapeTime x0 y0 cap = cap) := by
  obtain ⟨hm, hk, hf⟩ := escapeTime_iterate x0 y0 cap
  have hle := escapeTime_le x0 y0 cap
  constructor
  · intro k hlt
    have h := hk k hlt
    rw [loopCond_true_iff, iterate_normSq] at h
    exact h.1
  · rw [hm, loopCond_false_iff, iterate_normSq, iterate_iteration] at hf
    simp only [initState, Nat.zero_add] at hf
    rcases hf with h | h
    · rcases Nat.lt_or_ge (escapeTime x0 y0 cap) cap with hlt | hge
      · exact Or.inl ⟨hlt, h⟩
      · exact Or.inr (Nat.le_antisymm hle hge)
    · exact Or.inr (Nat.le_antisymm hle h)

theorem emitPixel_in_set_aux (m i j : Int) :
    emitPixel 3 i j m m = some [0, 0, 0] := by
  simp [emitPixel, black, toUChar]

/-- C5. For every palette selector in {1, 2, 3}, every column `i` and row `j`, when the
iteration count equals `max_iteration` the bytes written for the pixel are exactly
0x00 0x00 0x00. -/
theorem emitPixel_in_set (color_scheme i j max_iteration : Int)
    (hp : color_scheme = 1 ∨ color_scheme = 2 ∨ color_scheme = 3) :
    emitPixel color_scheme i j max_iteration max_iteration = some [0x00, 0x00, 0x00] := by
  rcases hp with rfl | rfl | rfl <;> simp [emitPixel, black, toUChar]

theorem emitPixel_in_set_witness :
    ((2 : Int) = 1 ∨ (2 : Int) = 2 ∨ (2 : Int) = 3)
      ∧ emitPixel 2 7999 4570 1000 1000 = some [0x00, 0x00, 0x00] :=
  ⟨by decide, emitPixel_in_set 2 7999 4570 1000 (by decide)⟩

theorem palette3_length (i j n : Int) :
    ∃ t, palette3 i j n = some t ∧ t.length = 3 := by
  simp [palette3, idiv]

theorem emitPixel3_length (i j n m : Int) :
    ∃ t, emitPixel 3 i j n m = some t ∧ t.length = 3 := by
  by_cases h : n = m
  · subst h
    exact ⟨_, emitPixel_in_set_aux n i j, rfl⟩
  · obtain ⟨t, ht, hl⟩ := palette3_length i j n
    refine ⟨t, ?_, hl⟩
    simp [emitPixel, h, ht]

/-! ## The pixel loops -/

/-- A loop whose body always writes `c` bytes writes `c * n` bytes, and the block of
`c` bytes at offset `c * a` is what execution `a` of the body wrote. -/
theorem forEmit_blocks (c : Nat) (body : Nat → Option (List Nat)) (n : Nat)
    (hbody : ∀ k, k < n → ∃ t, body k = some t ∧ t.length = c) :
    ∃ out, forEmit n body = some out ∧ out.length = c * n
      ∧ ∀ a, a < n → body a = some ((out.drop (c * a)).take c) := by
  induction n with
  | zero => exact ⟨[], rfl, by simp, fun a ha => absurd ha (Nat.not_lt_zero a)⟩
  | succ n ih =>
    obtain ⟨out, hout, hlen, hblk⟩ := ih (fun k hk => hbody k (Nat.lt_succ_of_lt hk))
    obtain ⟨t, ht, htl⟩ := hbody n (Nat.lt_succ_self n)
    refine ⟨out ++ t, ?_, ?_, ?_⟩
    · simp [forEmit, hout, ht]
    · rw [List.length_append, hlen, htl, Nat.mul_succ]
    · intro a ha
      rcases Nat.lt_or_ge a n with hlt | hge
      · have h1 : c * a ≤ out.length := by
          rw [hlen]; exact Nat.mul_le_mul_left c (Nat.le_of_lt hlt)
        have h2 : c ≤ (out.drop (c * a)).length := by
          rw [List.length_drop, hlen, ← Nat.mul_sub]
          exact Nat.le_mul_of_pos_right c (Nat.sub_pos_of_lt hlt)
        rw [List.drop_append_of_le_length h1, List.take_append_of_le_length h2]
        exact hblk a hlt
      · have han : a = n := Nat.le_antisymm (Nat.le_of_lt_succ ha) hge
        subst han
        rw [List.drop_left' hlen, List.take_of_length_le (Nat.le_of_eq htl)]
        exact ht

theorem pixel3_length (j i : Nat) : ∃ t, pixel 3 j i = some t ∧ t.length = 3 :=
  emitPixel3_length _ _ _ _

/-- Shape of a run whose output file opens: both headers, then the pixel bytes, three
per pixel, rows in order and columns in order within a row. -/
theorem main_opened (seed : Nat) :
    ∃ pixels, main seed true
        = some { file_name := "mandelbrot_3.bmp",
                 written := bmp_header ++ dib_header ++ pixels, exitCode := 0 }
      ∧ forEmit 4571 (fun j => forEmit 8000 (fun i => pixel 3 j i)) = some pixels
      ∧ pixels.length = 3 * (8000 * 4571)
      ∧ ∀ j i, j < 4571 → i < 8000 →
          pixel 3 j i = some ((pixels.drop (3 * (j * 8000 + i))).take 3) := by
  have hrow : ∀ j, j < 4571 →
      ∃ row, forEmit 8000 (fun i => pixel 3 j i) = some row ∧ row.length = 24000 := by
    intro j _
    obtain ⟨row, hr, hl, _⟩ :=
      forEmit_blocks 3 (fun i => pixel 3 j i) 8000 (fun i _ => pixel3_length j i)
    exact ⟨row, hr, by omega⟩
  obtain ⟨pixels, hp, hlen, hblk⟩ :=
    forEmit_blocks 24000 (fun j => forEmit 8000 (fun i => pixel 3 j i)) 4571 hrow
  refine ⟨pixels, ?_, hp, by omega, ?_⟩
  · have hname : "mandelbrot_" ++ toString (3 : Int) ++ ".bmp" = "mandelbrot_3.bmp" := by
      decide
    simp only [main, runWith, hname, hp]
    rfl
  · intro j i hj hi
    obtain ⟨row, hr, _, hpix⟩ :=
      forEmit_blocks 3 (fun i => pixel 3 j i) 8000 (fun i _ => pixel3_length j i)
    have hrow2 := hblk j hj
    simp only [hr, Option.some.injEq] at hrow2
    have h := hpix i hi
    simp only at h
    rw [h, hrow2, List.drop_take, List.take_take, List.drop_drop]
    have e1 : 24000 * j + 3 * i = 3 * (j * 8000 + i) := by omega
    have e2 : min 3 (24000 - 3 * i) = 3 := by omega
    rw [e1, e2]

/-! ## The output file -/

/-- C6. On a run whose output file opens, the program writes exactly
54 + 3 * 8000 * 4571 = 109704054 bytes: the 14 bytes of the file header, the 40 bytes
of the metadata header, then exactly 3 bytes for each of the 8000 * 4571 pixels. -/
theorem main_written_length (seed : Nat) :
    ∃ r pixels, main seed true = some r
      ∧ r.written = bmp_header ++ dib_header ++ pixels
      ∧ bmp_header.length = 14 ∧ dib_header.length = 40
      ∧ pixels.length = 3 * (8000 * 4571)
      ∧ (∀ j i, j < 4571 → i < 8000 →
          ∃ t, pixel 3 j i = some t ∧ t.length = 3
            ∧ (pixels.drop (3 * (j * 8000 + i))).take 3 = t)
      ∧ r.written.length = 54 + 3 * 8000 * 4571
      ∧ r.written.length = 109704054 := by
  obtain ⟨pixels, hmain, _, hlen, hpix⟩ := main_opened seed
  have h14 : bmp_header.length = 14 := rfl
  have h40 : dib_header.length = 40 := rfl
  refine ⟨_, pixels, hmain, rfl, h14, h40, hlen, ?_, ?_, ?_⟩
  · intro j i hj hi
    obtain ⟨t, ht, hl⟩ := pixel3_length j i
    have h := hpix j i hj hi
    rw [ht, Option.some.injEq] at h
    exact ⟨t, ht, hl, h.symm⟩
  · simp only [List.length_append, h14, h40, hlen]
  · simp only [List.length_append, h14, h40, hlen]

/-- C7. The headers written decode back to the dimensions the pixel loops use: bytes 0
and 1 of the output are 0x42 0x4D, the little-endian 32-bit field at offset 18 is 8000
and the one at offset 22 is 4571, and the pixel bytes are those of an outer loop over
as many rows as the height field says and an inner loop over as many columns as the
width field says. -/
theorem main_header_dimensions (seed : Nat) :
    ∃ r pixels, main seed true = some r
      ∧ r.written.getD 0 0 = 0x42 ∧ r.written.getD 1 0 = 0x4D
      ∧ le32 r.written 18 = 8000 ∧ le32 r.written 22 = 4571
      ∧ r.written = bmp_header ++ dib_header ++ pixels
      ∧ forEmit (le32 r.written 22)
          (fun j => forEmit (le32 r.written 18) (fun i => pixel 3 j i)) = some pixels := by
  obtain ⟨pixels, hmain, hloop, _, _⟩ := main_opened seed
  have h18 : le32 (bmp_header ++ dib_header ++ pixels) 18 = 8000 := rfl
  have h22 : le32 (bmp_header ++ dib_header ++ pixels) 22 = 4571 := rfl
  refine ⟨_, pixels, hmain, rfl, rfl, h18, h22, rfl, ?_⟩
  simp only [h18, h22]
  exact hloop

/-- C8. The sizes declared in the file header agree with what is written: the
little-endian 32-bit field at bytes 2..5 equals the number of bytes the program writes
on a run whose output file opens, and the field at bytes 10..13 equals 54 = 14 + 40,
the offset at which the first pixel byte is written. -/
theorem main_declared_sizes (seed : Nat) :
    ∃ r pixels, main seed true = some r
      ∧ le32 r.written 2 = r.written.length
      ∧ le32 r.written 10 = 54
      ∧ 54 = bmp_header.length + dib_header.length
      ∧ r.written.take 54 = bmp_header ++ dib_header
      ∧ r.written.drop (le32 r.written 10) = pixels
      ∧ forEmit 4571 (fun j => forEmit 8000 (fun i => pixel 3 j i)) = some pixels := by
  obtain ⟨pixels, hmain, hloop, hlen, _⟩ := main_opened seed
  have h2 : le32 (bmp_header ++ dib_header ++ pixels) 2 = 109704054 := by
    simp only [le32, bmp_header, dib_header, List.cons_append, List.getD_cons_succ,
      List.getD_cons_zero]
  have h10 : le32 (bmp_header ++ dib_header ++ pixels) 10 = 54 := rfl
  have h14 : bmp_header.length = 14 := rfl
  have h40 : dib_header.length = 40 := rfl
  have h54 : (bmp_header ++ dib_header).length = 54 := rfl
  refine ⟨_, pixels, hmain, ?_, h10, rfl, ?_, ?_, hloop⟩
  · simp only [h2, List.length_append, h14, h40, hlen]
  · exact List.take_left' h54
  · simp only [h10]
    exact List.drop_left' h54

/-- C9. Output byte order is row-major: for every column `i < 8000` and row
`j < 4571`, the three bytes at file offsets `54 + 3 * (j * 8000 + i)` and the two
after it are the bytes computed for pixel `(i, j)` from its own sample point, its
iteration count and palette 3, sample point and count being those the program
computes in binary64; they are 0x00 0x00 0x00 whenever the sample point does not
escape within 1000 iterations of the program's loop. -/
theorem main_row_major (seed i j : Nat) (hi : i < 8000) (hj : j < 4571) :
    ∃ r t, main seed true = some r
      ∧ emitPixel 3 i j (escapeTimeF (sampleXF i) (sampleYF j) 1000) 1000 = some t
      ∧ t.length = 3
      ∧ (r.written.drop (54 + 3 * (j * 8000 + i))).take 3 = t
      ∧ (escapeTimeF (sampleXF i) (sampleYF j) 1000 = 1000 → t = [0x00, 0x00, 0x00]) := by
  obtain ⟨pixels, hmain, _, _, hpix⟩ := main_opened seed
  obtain ⟨t, ht, hl⟩ := pixel3_length j i
  have h := hpix j i hj hi
  rw [ht, Option.some.injEq] at h
  have h54 : (bmp_header ++ dib_header).length = 54 := rfl
  refine ⟨_, t, hmain, ht, hl, ?_, ?_⟩
  · simp only
    rw [← h54, List.drop_append, ← h]
  · intro hcap
    have hb : pixel 3 j i = some [0, 0, 0] := by
      simp only [pixel, hcap]
      exact emitPixel_in_set_aux _ _ _
    rw [ht, Option.some.injEq] at hb
    exact hb

theorem main_row_major_witness :
    (7999 < 8000) ∧ (4570 < 4571)
      ∧ ∃ r t, main 0 true = some r
        ∧ emitPixel 3 (7999 : Nat) (4570 : Nat)
            (escapeTimeF (sampleXF 7999) (sampleYF 4570) 1000) 1000 = some t
        ∧ t.length = 3
        ∧ (r.written.drop (54 + 3 * (4570 * 8000 + 7999))).take 3 = t
        ∧ (escapeTimeF (sampleXF 7999) (sampleYF 4570) 1000 = 1000
            → t = [0x00, 0x00, 0x00]) :=
  ⟨by decide, by decide, main_row_major 0 7999 4570 (by decide) (by decide)⟩

/-- C10. If the output file does not open, the program returns 20 and writes no byte
to the file; if it opens, the program returns 0; in both cases the run has a result
and no other exit code occurs. -/
theorem main_exit_codes (seed : Nat) :
    (∃ r, main seed false = some r ∧ r.exitCode = 20 ∧ r.written = [])
      ∧ (∃ r, main seed true = some r ∧ r.exitCode = 0)
      ∧ (∀ opens, ∃ r, main seed opens = some r ∧ (r.exitCode = 0 ∨ r.exitCode = 20)) := by
  obtain ⟨pixels, hmain, _⟩ := main_opened seed
  have hfalse : ∃ r, main seed false = some r ∧ r.exitCode = 20 ∧ r.written = [] :=
    ⟨_, rfl, rfl, rfl⟩
  refine ⟨hfalse, ⟨_, hmain, rfl⟩, ?_⟩
  intro opens
  cases opens with
  | false =>
    obtain ⟨r, hr, he, _⟩ := hfalse
    exact ⟨r, hr, Or.inr he⟩
  | true => exact ⟨_, hmain, Or.inl rfl⟩

/-! ## Seed and file name -/

/-- C11. The file name and every output byte are independent of the clock-derived seed:
for any two seed values the runs whose output file opens have one and the same result
(same file name, byte-identical contents, same exit code), and the same holds when the
file does not open. -/
theorem main_seed_independent (seed1 seed2 : Nat) :
    (∃ r, main seed1 true = some r ∧ main seed2 true = some r)
      ∧ (∀ opens, main seed1 opens = main seed2 opens)
      ∧ (∀ opens, Option.map Run.file_name (main seed1 opens)
            = Option.map Run.file_name (main seed2 opens))
      ∧ (∀ opens, Option.map Run.written (main seed1 opens)
            = Option.map Run.written (main seed2 opens)) := by
  obtain ⟨pixels, hmain, _⟩ := main_opened seed1
  exact ⟨⟨_, hmain, hmain⟩, fun _ => rfl, fun _ => rfl, fun _ => rfl⟩

theorem runWith_file_name (color_scheme : Int) (opens : Bool) (r : Run)
    (h : runWith color_scheme opens = some r) :
    r.file_name = "mandelbrot_" ++ toString color_scheme ++ ".bmp" := by
  cases opens with
  | false =>
    simp only [runWith, Bool.not_false, if_true, Option.some.injEq] at h
    rw [← h]
  | true =>
    simp only [runWith, Bool.not_true, Bool.false_eq_true, if_false] at h
    cases hp : forEmit 4571 (fun j => forEmit 8000 (fun i => pixel color_scheme j i)) with
    | none => rw [hp] at h; exact absurd h (by simp)
    | some pixels =>
      rw [hp] at h
      simp only [Option.bind_eq_bind, Option.some_bind, Option.pure_def,
        Option.some.injEq] at h
      rw [← h]

theorem emitPixel3_eq (i j n m : Int) :
    emitPixel 3 i j n m = if n = m then some black else palette3 i j n := by
  by_cases h : n = m <;> simp [emitPixel, h]

theorem pixel3_branch (j i : Nat) :
    pixel 3 j i
      = if ((escapeTimeF (sampleXF i) (sampleYF j) 1000 : Nat) : Int) = ((1000 : Nat) : Int)
        then some black
        else palette3 i j (escapeTimeF (sampleXF i) (sampleYF j) 1000) :=
  emitPixel3_eq _ _ _ _

/-- C12. The output file name is "mandelbrot_", the decimal palette selector and
".bmp"; in the program the selector is 3 and the name is exactly "mandelbrot_3.bmp",
and the same selector picks the branch of every pixel: each pixel's bytes are black at
the cap and those of palette 3 otherwise. -/
theorem main_file_name (seed : Nat) (opens : Bool) :
    (∃ r, main seed opens = some r ∧ runWith 3 opens = some r
        ∧ r.file_name = "mandelbrot_" ++ toString (3 : Int) ++ ".bmp"
        ∧ r.file_name = "mandelbrot_3.bmp")
      ∧ (∀ color_scheme o r, runWith color_scheme o = some r →
          r.file_name = "mandelbrot_" ++ toString color_scheme ++ ".bmp")
      ∧ (∃ r pixels, main seed true = some r
          ∧ r.written = bmp_header ++ dib_header ++ pixels
          ∧ forEmit 4571 (fun j => forEmit 8000 (fun i => pixel 3 j i)) = some pixels)
      ∧ (∀ j i, pixel 3 j i
          = if ((escapeTimeF (sampleXF i) (sampleYF j) 1000 : Nat) : Int)
                = ((1000 : Nat) : Int)
            then some black
            else palette3 i j (escapeTimeF (sampleXF i) (sampleYF j) 1000)) := by
  obtain ⟨pixels, hmain, hloop, _⟩ := main_opened seed
  have hname : "mandelbrot_" ++ toString (3 : Int) ++ ".bmp" = "mandelbrot_3.bmp" := by
    decide
  refine ⟨?_, runWith_file_name, ⟨_, pixels, hmain, rfl, hloop⟩, pixel3_branch⟩
  cases opens with
  | false => exact ⟨_, rfl, rfl, rfl, hname⟩
  | true => exact ⟨_, hmain, hmain, hname.symm, rfl⟩

/-! ## Palette 3 arithmetic -/

theorem wrap32_of_range (z : Int) (h1 : -2147483648 ≤ z) (h2 : z < 2147483648) :
    wrap32 z = z := by
  unfold wrap32
  omega

theorem idiv_of_nonneg (a d : Int) (ha : 0 ≤ a) (ha2 : a < 2147483648) (hd : 0 < d) :
    idiv a d = some (a / d) := by
  have hq0 : 0 ≤ a / d := Int.ediv_nonneg ha (Int.le_of_lt hd)
  have hq1 : a / d ≤ a := Int.ediv_le_self d ha
  unfold idiv
  rw [if_neg (Int.ne_of_gt hd), Int.tdiv_eq_ediv ha (Int.le_of_lt hd),
    wrap32_of_range _ (by omega) (by omega)]

theorem palette3_of_bounds (i j n : Nat) (hi : i < 8000) (hj : j < 4571) (hn : n < 1000) :
    imul j n = ((j * n : Nat) : Int) ∧ imul i n = ((i * n : Nat) : Int)
      ∧ idiv (imul j n) 17855 = some ((j * n / 17855 : Nat) : Int)
      ∧ idiv (imul i n) 31250 = some ((i * n / 31250 : Nat) : Int)
      ∧ j * n / 17855 ≤ 255 ∧ i * n / 31250 ≤ 255
      ∧ palette3 i j n
          = some [toUChar ((255 - ((j * n / 17855 : Nat) : Int)) * j - 4 * i),
                  toUChar (isub 255 (wrap32 (Int.tdiv (imul (imul i j) n) 312500))),
                  255 - i * n / 31250] := by
  have hjn : j * n ≤ 4570 * 999 := Nat.mul_le_mul (by omega) (by omega)
  have hin : i * n ≤ 7999 * 999 := Nat.mul_le_mul (by omega) (by omega)
  have hq1 : j * n / 17855 ≤ 255 := by omega
  have hq3 : i * n / 31250 ≤ 255 := by omega
  have hqj : (255 - j * n / 17855) * j ≤ 255 * 4570 :=
    Nat.mul_le_mul (by omega) (by omega)
  have e1 : imul j n = ((j * n : Nat) : Int) := by
    unfold imul
    rw [← Int.ofNat_mul]
    exact wrap32_of_range _ (by omega) (by omega)
  have e2 : imul i n = ((i * n : Nat) : Int) := by
    unfold imul
    rw [← Int.ofNat_mul]
    exact wrap32_of_range _ (by omega) (by omega)
  have d1 : idiv (imul j n) 17855 = some ((j * n / 17855 : Nat) : Int) := by
    rw [e1, idiv_of_nonneg _ _ (by omega) (by omega) (by decide)]
    rfl
  have d3 : idiv (imul i n) 31250 = some ((i * n / 31250 : Nat) : Int) := by
    rw [e2, idiv_of_nonneg _ _ (by omega) (by omega) (by decide)]
    rfl
  refine ⟨e1, e2, d1, d3, hq1, hq3, ?_⟩
  have s1 : isub 255 ((j * n / 17855 : Nat) : Int) = ((255 - j * n / 17855 : Nat) : Int) := by
    unfold isub
    rw [wrap32_of_range _ (by omega) (by omega)]
    omega
  have s2 : imul ((255 - j * n / 17855 : Nat) : Int) j
      = (((255 - j * n / 17855) * j : Nat) : Int) := by
    unfold imul
    rw [← Int.ofNat_mul]
    exact wrap32_of_range _ (by omega) (by omega)
  have s3 : imul 4 i = 4 * (i : Int) := by
    unfold imul
    exact wrap32_of_range _ (by omega) (by omega)
  have s4 : isub (((255 - j * n / 17855) * j : Nat) : Int) (4 * (i : Int))
      = (255 - ((j * n / 17855 : Nat) : Int)) * j - 4 * i := by
    have hA : (((255 - j * n / 17855) * j : Nat) : Int)
        = (255 - ((j * n / 17855 : Nat) : Int)) * j := by
      rw [Int.ofNat_mul, Int.ofNat_sub hq1]
      rfl
    have hb : (((255 - j * n / 17855) * j : Nat) : Int) ≤ 255 * 4570 :=
      Int.ofNat_le.mpr hqj
    have hb0 : 0 ≤ (((255 - j * n / 17855) * j : Nat) : Int) := Int.ofNat_nonneg _
    rw [← hA]
    generalize (((255 - j * n / 17855) * j : Nat) : Int) = A at hb hb0
    unfold isub
    exact wrap32_of_range _ (by omega) (by omega)
  have s5 : toUChar (isub 255 ((i * n / 31250 : Nat) : Int)) = 255 - i * n / 31250 := by
    unfold isub toUChar
    rw [wrap32_of_range _ (by omega) (by omega)]
    omega
  have d2 : idiv (imul (imul i j) n) 312500
      = some (wrap32 (Int.tdiv (imul (imul i j) n) 312500)) := by
    simp [idiv]
  simp only [palette3, d1, d2, d3, s1, s2, s3, s4, s5, Option.bind_eq_bind,
    Option.some_bind, Option.pure_def]

/-- Where the palette 3 formulas are computed exactly: the first and third bytes are
always their formulas reduced modulo 256, and so is the second byte whenever the
product `i * j * n` fits a 32-bit `int`. -/
theorem palette3_exact_without_overflow (i j n : Nat) (hi : i < 8000) (hj : j < 4571)
    (hn : n < 1000) :
    ∃ b2, palette3 i j n
        = some [toUChar ((255 - ((j * n / 17855 : Nat) : Int)) * j - 4 * i), b2,
                toUChar (255 - ((i * n / 31250 : Nat) : Int))]
      ∧ (i * j * n < 2147483648 →
          b2 = toUChar (255 - ((i * j * n / 312500 : Nat) : Int))) := by
  obtain ⟨_, _, _, _, _, hq3, hp⟩ := palette3_of_bounds i j n hi hj hn
  have h3 : toUChar (255 - ((i * n / 31250 : Nat) : Int)) = 255 - i * n / 31250 := by
    unfold toUChar
    omega
  refine ⟨_, by rw [h3]; exact hp, ?_⟩
  intro hfit
  have hij : i * j ≤ 7999 * 4570 := Nat.mul_le_mul (by omega) (by omega)
  have e1 : imul i j = ((i * j : Nat) : Int) := by
    unfold imul
    rw [← Int.ofNat_mul]
    generalize i * j = a at hij
    exact wrap32_of_range _ (by omega) (by omega)
  have e2 : imul ((i * j : Nat) : Int) n = ((i * j * n : Nat) : Int) := by
    unfold imul
    rw [← Int.ofNat_mul]
    generalize i * j * n = a at hfit
    exact wrap32_of_range _ (by omega) (by omega)
  have hq : wrap32 (Int.tdiv ((i * j * n : Nat) : Int) 312500)
      = ((i * j * n / 312500 : Nat) : Int) := by
    have ht : Int.tdiv ((i * j * n : Nat) : Int) 312500
        = ((i * j * n / 312500 : Nat) : Int) := by
      rw [Int.tdiv_eq_ediv (Int.ofNat_nonneg _) (by decide)]
      rfl
    rw [ht]
    generalize i * j * n = a at hfit
    exact wrap32_of_range _ (by omega) (by omega)
  have hs : isub 255 ((i * j * n / 312500 : Nat) : Int)
      = 255 - ((i * j * n / 312500 : Nat) : Int) := by
    unfold isub
    generalize i * j * n = a at hfit
    exact wrap32_of_range _ (by omega) (by omega)
  rw [e1, e2, hq, hs]

/-- C13 (the code at a failing input). In row 3000, column 6560, with iteration count
276, the product `i * j * iteration` is 5431680000 and does not fit a 32-bit `int`;
the second byte written is 202, whereas the exact value of its formula reduced modulo
256 is 26.  The first and third bytes, 184 and 198, agree with their formulas. -/
theorem palette3_overflow_at :
    palette3 6560 3000 276 = some [184, 202, 198]
      ∧ toUChar (255 - Int.tdiv (6560 * 3000 * 276) 312500) = 26
      ∧ toUChar ((255 - Int.tdiv (3000 * 276) 17855) * 3000 - 4 * 6560) = 184
      ∧ toUChar (255 - Int.tdiv (6560 * 276) 31250) = 198
      ∧ (6560 : Int) * 3000 * 276 = 5431680000
      ∧ imul (imul 6560 3000) 276 = 1136712704 := by
  decide

/-- C18. For every column `i < 8000`, row `j < 4571` and iteration count `n < 1000`,
`i*n/31250 <= 255` and `j*n/17855 <= 255`; the products `i*n` and `j*n` are computed
without 32-bit wrap and so are the two quotients; the third byte written is exactly
`255 - i*n/31250`, a value in [0, 255], and the factor `255 - j*n/17855` of the first
byte is computed without wrap and is non-negative. -/
theorem palette3_scaled_terms (i j n : Nat) (hi : i < 8000) (hj : j < 4571)
    (hn : n < 1000) :
    i * n / 31250 ≤ 255 ∧ j * n / 17855 ≤ 255
      ∧ imul i n = ((i * n : Nat) : Int) ∧ imul j n = ((j * n : Nat) : Int)
      ∧ i * n < 2147483648 ∧ j * n < 2147483648
      ∧ idiv (imul i n) 31250 = some ((i * n / 31250 : Nat) : Int)
      ∧ idiv (imul j n) 17855 = some ((j * n / 17855 : Nat) : Int)
      ∧ isub 255 ((j * n / 17855 : Nat) : Int) = 255 - ((j * n / 17855 : Nat) : Int)
      ∧ 0 ≤ isub 255 ((j * n / 17855 : Nat) : Int)
      ∧ (∃ b1 b2, palette3 i j n = some [b1, b2, 255 - i * n / 31250])
      ∧ 255 - i * n / 31250 ≤ 255 := by
  obtain ⟨e1, e2, d1, d3, hq1, hq3, hp⟩ := palette3_of_bounds i j n hi hj hn
  have hjn : j * n ≤ 4570 * 999 := Nat.mul_le_mul (by omega) (by omega)
  have hin : i * n ≤ 7999 * 999 := Nat.mul_le_mul (by omega) (by omega)
  have s1 : isub 255 ((j * n / 17855 : Nat) : Int) = 255 - ((j * n / 17855 : Nat) : Int) := by
    unfold isub
    exact wrap32_of_range _ (by omega) (by omega)
  refine ⟨hq3, hq1, e2, e1, by omega, by omega, d3, d1, s1, ?_, ⟨_, _, hp⟩, by omega⟩
  rw [s1]
  omega

theorem palette3_scaled_terms_witness :
    (7999 < 8000) ∧ (4570 < 4571) ∧ (999 < 1000)
      ∧ 7999 * 999 / 31250 ≤ 255 ∧ 4570 * 999 / 17855 ≤ 255
      ∧ ∃ b1 b2, palette3 (7999 : Nat) (4570 : Nat) (999 : Nat)
          = some [b1, b2, 255 - 7999 * 999 / 31250] :=
  have h := palette3_scaled_terms 7999 4570 999 (by decide) (by decide) (by decide)
  ⟨by decide, by decide, by decide, h.1, h.2.1, h.2.2.2.2.2.2.2.2.2.2.1⟩

/-! ## Rows and the metadata header -/

theorem main_rows (seed : Nat) :
    ∃ pixels, main seed true
        = some { file_name := "mandelbrot_3.bmp",
                 written := bmp_header ++ dib_header ++ pixels, exitCode := 0 }
      ∧ pixels.length = 24000 * 4571
      ∧ ∀ j, j < 4571 → ∃ row, forEmit 8000 (fun i => pixel 3 j i) = some row
          ∧ row.length = 24000 ∧ (pixels.drop (24000 * j)).take 24000 = row := by
  have hrow : ∀ j, j < 4571 →
      ∃ row, forEmit 8000 (fun i => pixel 3 j i) = some row ∧ row.length = 24000 := by
    intro j _
    obtain ⟨row, hr, hl, _⟩ :=
      forEmit_blocks 3 (fun i => pixel 3 j i) 8000 (fun i _ => pixel3_length j i)
    exact ⟨row, hr, by omega⟩
  obtain ⟨out, hp, hlen, hblk⟩ :=
    forEmit_blocks 24000 (fun j => forEmit 8000 (fun i => pixel 3 j i)) 4571 hrow
  obtain ⟨pixels, hmain, hloop, _, _⟩ := main_opened seed
  have hsame : pixels = out := by
    rw [hp, Option.some.injEq] at hloop
    exact hloop.symm
  subst hsame
  refine ⟨pixels, hmain, hlen, ?_⟩
  intro j hj
  obtain ⟨row, hr, hl⟩ := hrow j hj
  have h := hblk j hj
  simp only [hr, Option.some.injEq] at h
  exact ⟨row, hr, hl, h.symm⟩

theorem header_fields (pixels : List Nat) :
    le32 (bmp_header ++ dib_header ++ pixels) 2 = 109704054
      ∧ le32 (bmp_header ++ dib_header ++ pixels) 14 = 40
      ∧ le32 (bmp_header ++ dib_header ++ pixels) 18 = 8000
      ∧ le32 (bmp_header ++ dib_header ++ pixels) 22 = 4571
      ∧ le16 (bmp_header ++ dib_header ++ pixels) 26 = 1
      ∧ le16 (bmp_header ++ dib_header ++ pixels) 28 = 24
      ∧ le32 (bmp_header ++ dib_header ++ pixels) 30 = 0
      ∧ le32 (bmp_header ++ dib_header ++ pixels) 34 = 109704000 := by
  simp only [le32, le16, bmp_header, dib_header, List.cons_append, List.nil_append,
    List.getD_cons_succ, List.getD_cons_zero]
  decide

/-- C14 (as stated, refuted). The width declared in the metadata header gives a row of
`3 * width` bytes that is a multiple of 4 and is not smaller than the required row
stride. -/
theorem row_bytes_multiple_of_four :
    (3 * le32 (bmp_header ++ dib_header) 18) % 4 = 0
      ∧ ¬ (3 * le32 (bmp_header ++ dib_header) 18
            < rowStride (le32 (bmp_header ++ dib_header) 18)) := by
  have h18 : le32 (bmp_header ++ dib_header) 18 = 8000 := by
    have h := (header_fields []).2.2.1
    rw [List.append_nil] at h
    exact h
  rw [h18]
  decide

/-- C14 (amended). No row-padding gap at the program's dimensions: the number of bytes
the program writes per pixel row, `3 * width` with the width 8000 declared in the
metadata header, is 24000, a multiple of 4, and equals the required row stride
(`3 * width` rounded up to a multiple of 4); the pixel data is one such row per row of
the image, with no padding bytes written. -/
theorem main_rows_need_no_padding (seed : Nat) :
    ∃ r pixels, main seed true = some r
      ∧ r.written = bmp_header ++ dib_header ++ pixels
      ∧ le32 r.written 18 = 8000
      ∧ (3 * le32 r.written 18) % 4 = 0
      ∧ rowStride (le32 r.written 18) = 3 * le32 r.written 18
      ∧ (∀ j, j < 4571 → ∃ row, forEmit 8000 (fun i => pixel 3 j i) = some row
          ∧ row.length = 3 * le32 r.written 18
          ∧ (pixels.drop (rowStride (le32 r.written 18) * j)).take
              (rowStride (le32 r.written 18)) = row)
      ∧ pixels.length = rowStride (le32 r.written 18) * le32 r.written 22 := by
  obtain ⟨pixels, hmain, hlen, hrows⟩ := main_rows seed
  obtain ⟨_, _, h18, h22, _⟩ := header_fields pixels
  have hs : rowStride 8000 = 24000 := by decide
  refine ⟨_, pixels, hmain, rfl, h18, ?_, ?_, ?_, ?_⟩
  · simp only [h18]
  · simp only [h18, hs]
  · intro j hj
    obtain ⟨row, hr, hl, ht⟩ := hrows j hj
    simp only [h18, hs]
    exact ⟨row, hr, hl, ht⟩
  · simp only [h18, h22, hs]
    exact hlen

/-- C15. The metadata header agrees with the pixel data written: its header-length
field (offset 14) is 40, its planes field (offset 26) is 1, its bits-per-pixel field
(offset 28) is 24, eight times the 3 bytes written per pixel, its compression field
(offset 30) is 0, and its image-size field (offset 34) is 3 * 8000 * 4571, the number
of pixel bytes written, which is the file-size field minus 54. -/
theorem main_metadata_header (seed : Nat) :
    ∃ r pixels, main seed true = some r
      ∧ r.written = bmp_header ++ dib_header ++ pixels
      ∧ le32 r.written 14 = 40
      ∧ le16 r.written 26 = 1
      ∧ le16 r.written 28 = 24
      ∧ (∀ j i, j < 4571 → i < 8000 →
          ∃ t, pixel 3 j i = some t ∧ le16 r.written 28 = 8 * t.length)
      ∧ le32 r.written 30 = 0
      ∧ le32 r.written 34 = 3 * 8000 * 4571
      ∧ le32 r.written 34 = pixels.length
      ∧ le32 r.written 34 + 54 = le32 r.written 2
      ∧ le32 r.written 34 = le32 r.written 2 - 54 := by
  obtain ⟨pixels, hmain, _, hlen, _⟩ := main_opened seed
  obtain ⟨h2, h14, _, _, h26, h28, h30, h34⟩ := header_fields pixels
  refine ⟨_, pixels, hmain, rfl, h14, h26, h28, ?_, h30, ?_, ?_, ?_, ?_⟩
  · intro j i _ _
    obtain ⟨t, ht, hl⟩ := pixel3_length j i
    refine ⟨t, ht, ?_⟩
    simp only [h28, hl]
  · simp only [h34]
  · simp only [h34, hlen]
  · simp only [h34, h2]
  · simp only [h34, h2]

/-! ## Viewport mapping -/

theorem sampleX_eq (i : Nat) : sampleX i = 7 / 15998 * (i : ℚ) - 5 / 2 := by
  unfold sampleX
  norm_num
  ring

theorem sampleY_eq (j : Nat) : sampleY j = 1 / 2285 * (j : ℚ) - 1 := by
  unfold sampleY
  norm_num
  ring

/-- C16. In exact arithmetic the sample point of pixel `(i, j)` is
`x0 = 3.5*i/7999 - 2.5`, `y0 = 2*j/4570 - 1`: affine (constant step between
neighbouring columns and between neighbouring rows) and strictly increasing in `i` and
in `j`; column 0 maps to -2.5, column 7999 to 1.0, row 0 to -1.0, row 4570 to 1.0, and
every pixel `i < 8000`, `j < 4571` samples a point of [-2.5, 1.0] x [-1.0, 1.0]. -/
theorem sample_point_affine :
    (∀ i : Nat, sampleX i = 3.5 * (i : ℚ) / 7999 - 2.5)
      ∧ (∀ j : Nat, sampleY j = 2 * (j : ℚ) / 4570 - 1)
      ∧ (∀ i : Nat, sampleX (i + 1) - sampleX i = 3.5 / 7999)
      ∧ (∀ j : Nat, sampleY (j + 1) - sampleY j = 2 / 4570)
      ∧ StrictMono sampleX ∧ StrictMono sampleY
      ∧ sampleX 0 = -2.5 ∧ sampleX 7999 = 1.0
      ∧ sampleY 0 = -1.0 ∧ sampleY 4570 = 1.0
      ∧ (∀ i : Nat, i < 8000 → -2.5 ≤ sampleX i ∧ sampleX i ≤ 1.0)
      ∧ (∀ j : Nat, j < 4571 → -1.0 ≤ sampleY j ∧ sampleY j ≤ 1.0) := by
  refine ⟨?_, ?_, ?_, ?_, ?_, ?_, ?_, ?_, ?_, ?_, ?_, ?_⟩
  · intro i
    rw [sampleX_eq]
    norm_num
    ring
  · intro j
    rw [sampleY_eq]
    ring
  · intro i
    rw [sampleX_eq, sampleX_eq]
    push_cast
    norm_num
    ring
  · intro j
    rw [sampleY_eq, sampleY_eq]
    push_cast
    ring
  · intro a b hab
    have h : (a : ℚ) < b := Nat.cast_lt.mpr hab
    rw [sampleX_eq, sampleX_eq]
    linarith
  · intro a b hab
    have h : (a : ℚ) < b := Nat.cast_lt.mpr hab
    rw [sampleY_eq, sampleY_eq]
    linarith
  · rw [sampleX_eq]
    norm_num
  · rw [sampleX_eq]
    norm_num
  · rw [sampleY_eq]
    norm_num
  · rw [sampleY_eq]
    norm_num
  · intro i hi
    have h0 : (0 : ℚ) ≤ i := Nat.cast_nonneg i
    have h1 : (i : ℚ) ≤ 7999 := by exact_mod_cast Nat.le_of_lt_succ hi
    rw [sampleX_eq]
    constructor
    · norm_num
    · norm_num
      linarith
  · intro j hj
    have h0 : (0 : ℚ) ≤ j := Nat.cast_nonneg j
    have h1 : (j : ℚ) ≤ 4570 := by exact_mod_cast Nat.le_of_lt_succ hj
    rw [sampleY_eq]
    constructor
    · norm_num
    · norm_num
      linarith

/-! ## Totality of the palette branches -/

theorem toUChar_lt (z : Int) : toUChar z < 256 := by
  unfold toUChar
  omega

theorem iadd_one_ne_zero (a : Int) (h0 : 0 ≤ a) (h1 : a < 2147483648) : iadd a 1 ≠ 0 := by
  unfold iadd wrap32
  omega

theorem bytes_of_cast (o : Option (List Nat)) (a b c : Int)
    (h : o = some [toUChar a, toUChar b, toUChar c]) :
    ∃ b1 b2 b3, o = some [b1, b2, b3] ∧ b1 < 256 ∧ b2 < 256 ∧ b3 < 256 :=
  ⟨_, _, _, h, toUChar_lt a, toUChar_lt b, toUChar_lt c⟩

theorem palette1_bytes (i j : Int) (hi : iadd i 1 ≠ 0) (hj : iadd j 1 ≠ 0) :
    ∃ a b c, palette1 i j = some [toUChar a, toUChar b, toUChar c] := by
  apply Exists.intro
  apply Exists.intro
  apply Exists.intro
  simp only [palette1, idiv, hi, hj, if_false, Option.bind_eq_bind, Option.some_bind,
    Option.pure_def, show ((3 : Int) = 0) = False from eq_false (by decide)]
  rfl

theorem palette2_bytes (i j n : Int) :
    ∃ a b c, palette2 i j n = some [toUChar a, toUChar b, toUChar c] := by
  apply Exists.intro
  apply Exists.intro
  apply Exists.intro
  simp only [palette2, idiv, if_false, Option.bind_eq_bind, Option.some_bind,
    Option.pure_def, show ((5255 : Int) = 0) = False from eq_false (by decide),
    show ((31250 : Int) = 0) = False from eq_false (by decide),
    show ((51250 : Int) = 0) = False from eq_false (by decide)]
  rfl

theorem palette3_bytes (i j n : Int) :
    ∃ a b c, palette3 i j n = some [toUChar a, toUChar b, toUChar c] := by
  apply Exists.intro
  apply Exists.intro
  apply Exists.intro
  simp only [palette3, idiv, if_false, Option.bind_eq_bind, Option.some_bind,
    Option.pure_def, show ((17855 : Int) = 0) = False from eq_false (by decide),
    show ((312500 : Int) = 0) = False from eq_false (by decide),
    show ((31250 : Int) = 0) = False from eq_false (by decide)]
  rfl

/-- C17. The Color Mapper is total: for every palette selector in {1, 2, 3}, every
column `i >= 0` and row `j >= 0` (values of type `int`) and every iteration count and
cap, no division of the palette formulas has a zero divisor (`j + 1` and `i + 1` are
not zero, the other divisors are non-zero constants), and three bytes are produced. -/
theorem emitPixel_total (color_scheme i j iteration max_iteration : Int)
    (hp : color_scheme = 1 ∨ color_scheme = 2 ∨ color_scheme = 3)
    (hi0 : 0 ≤ i) (hi1 : i < 2147483648) (hj0 : 0 ≤ j) (hj1 : j < 2147483648) :
    iadd j 1 ≠ 0 ∧ iadd i 1 ≠ 0
      ∧ ∃ b1 b2 b3, emitPixel color_scheme i j iteration max_iteration = some [b1, b2, b3]
          ∧ b1 < 256 ∧ b2 < 256 ∧ b3 < 256 := by
  have hi := iadd_one_ne_zero i hi0 hi1
  have hj := iadd_one_ne_zero j hj0 hj1
  refine ⟨hj, hi, ?_⟩
  by_cases h : iteration = max_iteration
  · refine bytes_of_cast _ 0 0 0 ?_
    rcases hp with rfl | rfl | rfl <;> simp [emitPixel, h, black]
  · rcases hp with rfl | rfl | rfl
    · obtain ⟨a, b, c, hpal⟩ := palette1_bytes i j hi hj
      refine bytes_of_cast _ a b c ?_
      simp [emitPixel, h, hpal]
    · obtain ⟨a, b, c, hpal⟩ := palette2_bytes i j iteration
      refine bytes_of_cast _ a b c ?_
      simp [emitPixel, h, hpal]
    · obtain ⟨a, b, c, hpal⟩ := palette3_bytes i j iteration
      refine bytes_of_cast _ a b c ?_
      simp [emitPixel, h, hpal]

theorem emitPixel_total_witness :
    ((1 : Int) = 1 ∨ (1 : Int) = 2 ∨ (1 : Int) = 3)
      ∧ (0 : Int) ≤ 0 ∧ (0 : Int) < 2147483648 ∧ (0 : Int) ≤ 0 ∧ (0 : Int) < 2147483648
      ∧ iadd 0 1 ≠ 0 ∧ iadd 0 1 ≠ 0
      ∧ ∃ b1 b2 b3, emitPixel 1 0 0 5 1000 = some [b1, b2, b3]
          ∧ b1 < 256 ∧ b2 < 256 ∧ b3 < 256 :=
  ⟨by decide, by decide, by decide, by decide, by decide,
    emitPixel_total 1 0 0 5 1000 (by decide) (by decide) (by decide) (by decide)
      (by decide)⟩

/-! ## Symmetry and the cap -/

theorem fl_zero : fl 0 = 0 := by
  simp [fl, roundHalfEven]

theorem binade_eq (q : ℚ) (e : ℤ) (he : -1022 ≤ e) (h1 : (2 : ℚ) ^ e ≤ |q|)
    (h2 : |q| < (2 : ℚ) ^ (e + 1)) : binade q = e := by
  have hpos : 0 < |q| := lt_of_lt_of_le (zpow_pos (by norm_num) e) h1
  have hlog : Int.log 2 |q| = e := by
    apply le_antisymm
    · have h := (Int.lt_zpow_iff_log_lt (by norm_num : 1 < 2) hpos).mp
        (by exact_mod_cast h2 : |q| < ((2 : ℕ) : ℚ) ^ (e + 1))
      omega
    · exact (Int.zpow_le_iff_le_log (by norm_num : 1 < 2) hpos).mp (by exact_mod_cast h1)
  unfold binade
  rw [hlog]
  exact max_eq_left he

theorem roundHalfEven_eq (r : ℚ) (m : ℤ) (h1 : (m : ℚ) - 1 / 2 < r)
    (h2 : r < (m : ℚ) + 1 / 2) : roundHalfEven r = m := by
  unfold roundHalfEven
  rcases le_or_lt (m : ℚ) r with hle | hlt
  · have hf : ⌊r⌋ = m := Int.floor_eq_iff.mpr ⟨hle, by linarith⟩
    rw [hf, if_pos (by linarith)]
  · have hf : ⌊r⌋ = m - 1 :=
      Int.floor_eq_iff.mpr ⟨by push_cast; linarith, by push_cast; linarith⟩
    rw [hf, if_neg (by push_cast; linarith), if_pos (by push_cast; linarith)]
    omega

/-- The binary64 value of `q`, from its binade `e` and the integer `m` nearest to
`q / 2^(e-52)`. -/
theorem fl_eq (q : ℚ) (e m : ℤ) (he : -1022 ≤ e) (h1 : (2 : ℚ) ^ e ≤ |q|)
    (h2 : |q| < (2 : ℚ) ^ (e + 1)) (h3 : (m : ℚ) - 1 / 2 < q / 2 ^ (e - 52))
    (h4 : q / 2 ^ (e - 52) < (m : ℚ) + 1 / 2) : fl q = m * 2 ^ (e - 52) := by
  unfold fl
  rw [binade_eq q e he h1 h2, roundHalfEven_eq _ m h3 h4]

theorem fl_four : fl (2.0 * 2.0) = 4 := by
  rw [fl_eq _ 2 (2 ^ 52) (by norm_num) (by norm_num) (by norm_num) (by norm_num)
    (by norm_num)]
  norm_num

/-! ## The escape-time loop in binary64 -/

theorem iterateF_iteration (x0 y0 : ℚ) (s : LoopState) (k : Nat) :
    ((loopBodyF x0 y0)^[k] s).iteration = s.iteration + k := by
  induction k with
  | zero => simp
  | succ k ih =>
    rw [Function.iterate_succ_apply']
    simp only [loopBodyF, ih]
    omega

theorem iterateF_orbit (x0 y0 : ℚ) (k : Nat) :
    (((loopBodyF x0 y0)^[k] initState).x, ((loopBodyF x0 y0)^[k] initState).y)
      = orbitF x0 y0 k := by
  induction k with
  | zero => norm_num [initState, orbitF]
  | succ k ih =>
    rw [Function.iterate_succ_apply']
    have hx := congrArg Prod.fst ih
    have hy := congrArg Prod.snd ih
    simp only at hx hy
    simp only [loopBodyF, orbitF, ← hx, ← hy]

theorem whileLoopF_iterate (x0 y0 : ℚ) (cap : Nat) (s : LoopState) :
    ∃ m, whileLoopF x0 y0 cap s = (loopBodyF x0 y0)^[m] s
      ∧ (∀ k, k < m → loopCondF cap ((loopBodyF x0 y0)^[k] s) = true)
      ∧ loopCondF cap (whileLoopF x0 y0 cap s) = false := by
  induction s using whileLoopF.induct x0 y0 cap with
  | case1 s h ih =>
    obtain ⟨m, hm, hk, hf⟩ := ih
    rw [whileLoopF, dif_pos h]
    refine ⟨m + 1, ?_, ?_, hf⟩
    · rw [hm, Function.iterate_succ_apply]
    · intro k hk1
      cases k with
      | zero => simpa using h
      | succ k =>
        rw [Function.iterate_succ_apply]
        exact hk k (by omega)
  | case2 s h =>
    rw [whileLoopF, dif_neg h]
    exact ⟨0, rfl, fun k hk => absurd hk (Nat.not_lt_zero k), by simpa using h⟩

theorem escapeTimeF_iterate (x0 y0 : ℚ) (cap : Nat) :
    whileLoopF x0 y0 cap initState = (loopBodyF x0 y0)^[escapeTimeF x0 y0 cap] initState
      ∧ (∀ k, k < escapeTimeF x0 y0 cap →
          loopCondF cap ((loopBodyF x0 y0)^[k] initState) = true)
      ∧ loopCondF cap (whileLoopF x0 y0 cap initState) = false := by
  obtain ⟨m, hm, hk, hf⟩ := whileLoopF_iterate x0 y0 cap initState
  have hn : escapeTimeF x0 y0 cap = m := by
    unfold escapeTimeF
    rw [hm, iterateF_iteration]
    simp [initState]
  rw [hn]
  exact ⟨hm, hk, hf⟩

theorem loopCondF_true_iff (cap : Nat) (s : LoopState) :
    loopCondF cap s = true ↔ normSqF (s.x, s.y) < 4 ∧ s.iteration < cap := by
  simp only [loopCondF, normSqF, fl_four, Bool.and_eq_true, decide_eq_true_eq]

theorem loopCondF_false_iff (cap : Nat) (s : LoopState) :
    loopCondF cap s = false ↔ 4 ≤ normSqF (s.x, s.y) ∨ cap ≤ s.iteration := by
  rw [← Bool.not_eq_true, loopCondF_true_iff, not_and_or, not_lt, not_lt]

theorem escapeTimeF_le (x0 y0 : ℚ) (cap : Nat) : escapeTimeF x0 y0 cap ≤ cap := by
  obtain ⟨_, hk, _⟩ := escapeTimeF_iterate x0 y0 cap
  by_contra hlt
  have h := hk (escapeTimeF x0 y0 cap - 1) (by omega)
  rw [loopCondF_true_iff, iterateF_iteration] at h
  simp only [initState] at h
  omega

/-- A sample point that is a binary64 value and whose rounded squared magnitude is at
least 4 leaves the program's loop after one execution of the body. -/
theorem escapeTimeF_of_outside (x0 y0 : ℚ) (cap : Nat) (hcap : 1 ≤ cap)
    (hx : fl x0 = x0) (hy : fl y0 = y0) (h : 4 ≤ normSqF (x0, y0)) :
    escapeTimeF x0 y0 cap = 1 := by
  have h0 : loopCondF cap initState = true := by
    rw [loopCondF_true_iff]
    norm_num [initState, normSqF, fl_zero]
    omega
  have hb : loopBodyF x0 y0 initState = { x := x0, y := y0, iteration := 1 } := by
    norm_num [loopBodyF, initState, fl_zero, hx, hy]
  have h1 : ¬ loopCondF cap (loopBodyF x0 y0 initState) = true := by
    rw [hb, loopCondF_true_iff]
    intro hlt
    exact absurd hlt.1 (not_lt.mpr h)
  unfold escapeTimeF
  rw [whileLoopF, dif_pos h0, whileLoopF, dif_neg h1, hb]

/-- C1 (amended). In the program's arithmetic, where every operation is rounded to
binary64: let `z_0 = (0,0)` and `z_{k+1} = (x_k^2 - y_k^2 + x0, 2*x_k*y_k + y0)` as the
loop body computes it, and let the squared magnitude be the rounded sum
`x_k*x_k + y_k*y_k` the loop tests.  For every sample point and every cap, the loop
returns `n` such that every `z_k` with `k < n` has squared magnitude below 4, and
either `n < cap` and `z_n` has squared magnitude at least 4, or `n = cap`. -/
theorem escapeTimeF_first_escape (x0 y0 : ℚ) (cap : Nat) :
    (∀ k, k < escapeTimeF x0 y0 cap → normSqF (orbitF x0 y0 k) < 4)
      ∧ ((escapeTimeF x0 y0 cap < cap
            ∧ 4 ≤ normSqF (orbitF x0 y0 (escapeTimeF x0 y0 cap)))
          ∨ escapeTimeF x0 y0 cap = cap) := by
  obtain ⟨hm, hk, hf⟩ := escapeTimeF_iterate x0 y0 cap
  have hle := escapeTimeF_le x0 y0 cap
  constructor
  · intro k hlt
    have h := hk k hlt
    rw [loopCondF_true_iff, iterateF_orbit] at h
    exact h.1
  · rw [hm, loopCondF_false_iff, iterateF_orbit, iterateF_iteration] at hf
    simp only [initState, Nat.zero_add] at hf
    rcases hf with h | h
    · rcases Nat.lt_or_ge (escapeTimeF x0 y0 cap) cap with hlt | hge
      · exact Or.inl ⟨hlt, h⟩
      · exact Or.inr (Nat.le_antisymm hle hge)
    · exact Or.inr (Nat.le_antisymm hle h)

theorem near_circle_rounding_literal :
    fl (-(0x1f8f03f8220b3f : ℚ) / 2 ^ 52) = (-(0x1f8f03f8220b3f : ℚ) / 2 ^ 52)
      ∧ fl ((0x152f76bb3c5864 : ℚ) / 2 ^ 54) = ((0x152f76bb3c5864 : ℚ) / 2 ^ 54)
      ∧ normSqF ((-(0x1f8f03f8220b3f : ℚ) / 2 ^ 52), ((0x152f76bb3c5864 : ℚ) / 2 ^ 54)) = 4 := by
  have hX : fl (-(0x1f8f03f8220b3f : ℚ) / 2 ^ 52) = (-(0x1f8f03f8220b3f : ℚ) / 2 ^ 52) := by
    rw [fl_eq _ 0 (-0x1f8f03f8220b3f) (by norm_num) (by norm_num [abs_of_neg])
      (by norm_num [abs_of_neg]) (by norm_num) (by norm_num)]
    norm_num
  have hY : fl ((0x152f76bb3c5864 : ℚ) / 2 ^ 54) = ((0x152f76bb3c5864 : ℚ) / 2 ^ 54) := by
    rw [fl_eq _ (-2) 0x152f76bb3c5864 (by norm_num) (by norm_num [abs_of_pos])
      (by norm_num [abs_of_pos]) (by norm_num) (by norm_num)]
    norm_num
  have hA : fl ((-(0x1f8f03f8220b3f : ℚ) / 2 ^ 52) * (-(0x1f8f03f8220b3f : ℚ) / 2 ^ 52)) = 8760457078514713 / 2 ^ 51 := by
    rw [fl_eq _ 1 8760457078514713 (by norm_num) (by norm_num [abs_of_pos])
      (by norm_num [abs_of_pos]) (by norm_num) (by norm_num)]
    norm_num
  have hB : fl (((0x152f76bb3c5864 : ℚ) / 2 ^ 54) * ((0x152f76bb3c5864 : ℚ) / 2 ^ 54)) = 7895749639240919 / 2 ^ 56 := by
    rw [fl_eq _ (-4) 7895749639240919 (by norm_num) (by norm_num [abs_of_pos])
      (by norm_num [abs_of_pos]) (by norm_num) (by norm_num)]
    norm_num
  have hS : fl ((8760457078514713 : ℚ) / 2 ^ 51 + 7895749639240919 / 2 ^ 56) = 4 := by
    rw [fl_eq _ 1 (2 ^ 53) (by norm_num) (by norm_num [abs_of_pos])
      (by norm_num [abs_of_pos]) (by norm_num) (by norm_num)]
    norm_num
  refine ⟨hX, hY, ?_⟩
  simp only [normSqF, hA, hB, hS]

theorem near_circle_rounding :
    fl nearCircleX = nearCircleX
      ∧ fl nearCircleY = nearCircleY
      ∧ normSqF (nearCircleX, nearCircleY) = 4 :=
  near_circle_rounding_literal

/-- C1 (as stated, refuted). At the binary64 sample point
`x0 = -0x1.f8f03f8220b3fp+0`, `y0 = 0x1.52f76bb3c5864p-2` (`nearCircleX`,
`nearCircleY`) the program's loop with cap 1000 returns 1: the rounded sum
`x*x + y*y` it tests is 4.0.  The exact orbit point `z_1 = (x0, y0)` has
`x^2 + y^2 < 4`, and 1 is not the cap, so neither alternative of the claim holds. -/
theorem escapeTimeF_not_exact_first_escape :
    escapeTimeF nearCircleX nearCircleY 1000 = 1
      ∧ normSq (orbit nearCircleX nearCircleY 1) < 4
      ∧ ¬ ((escapeTimeF nearCircleX nearCircleY 1000 < 1000
              ∧ 4 ≤ normSq (orbit nearCircleX nearCircleY
                        (escapeTimeF nearCircleX nearCircleY 1000)))
            ∨ escapeTimeF nearCircleX nearCircleY 1000 = 1000) := by
  obtain ⟨hX, hY, hN⟩ := near_circle_rounding
  have h1 : escapeTimeF nearCircleX nearCircleY 1000 = 1 :=
    escapeTimeF_of_outside _ _ 1000 (by decide) hX hY (le_of_eq hN.symm)
  have h2 : normSq (orbit nearCircleX nearCircleY 1) < 4 := by
    norm_num [orbit, normSq, nearCircleX, nearCircleY]
  refine ⟨h1, h2, ?_⟩
  rw [h1]
  rintro (⟨_, h⟩ | h)
  · exact absurd h2 (not_lt.mpr h)
  · exact absurd h (by decide)

/-- The first pixel of the file, column 0 of row 0, as the program computes it: the
sample point is (-2.5, -1), the loop returns 1 and palette 3 writes 0x00 0xFF 0xFF. -/
theorem first_pixel_bytes :
    sampleXF 0 = -2.5 ∧ sampleYF 0 = -1
      ∧ escapeTimeF (sampleXF 0) (sampleYF 0) 1000 = 1
      ∧ pixel 3 0 0 = some [0x00, 0xFF, 0xFF] := by
  have hx : fl (-2.5) = -2.5 := by
    rw [fl_eq _ 1 (-(5 * 2 ^ 50)) (by norm_num) (by norm_num [abs_of_neg])
      (by norm_num [abs_of_neg]) (by norm_num) (by norm_num)]
    norm_num
  have hy : fl (-1) = -1 := by
    rw [fl_eq _ 0 (-(2 ^ 52)) (by norm_num) (by norm_num) (by norm_num) (by norm_num)
      (by norm_num)]
    norm_num
  have sx : sampleXF 0 = -2.5 := by
    norm_num [sampleXF, fl_zero]
    norm_num at hx
    exact hx
  have sy : sampleYF 0 = -1 := by
    norm_num [sampleYF, fl_zero, hy]
  have h625 : fl (25 / 4) = 25 / 4 := by
    rw [fl_eq _ 2 (25 * 2 ^ 48) (by norm_num) (by norm_num [abs_of_pos])
      (by norm_num [abs_of_pos]) (by norm_num) (by norm_num)]
    norm_num
  have h1 : fl 1 = 1 := by
    rw [fl_eq _ 0 (2 ^ 52) (by norm_num) (by norm_num) (by norm_num) (by norm_num)
      (by norm_num)]
    norm_num
  have h725 : fl (29 / 4) = 29 / 4 := by
    rw [fl_eq _ 2 (29 * 2 ^ 48) (by norm_num) (by norm_num [abs_of_pos])
      (by norm_num [abs_of_pos]) (by norm_num) (by norm_num)]
    norm_num
  have hn : (4 : ℚ) ≤ normSqF (-2.5, -1) := by
    norm_num [normSqF, h625, h1, h725]
  have he : escapeTimeF (sampleXF 0) (sampleYF 0) 1000 = 1 := by
    rw [sx, sy]
    exact escapeTimeF_of_outside _ _ 1000 (by decide) hx hy hn
  refine ⟨sx, sy, he, ?_⟩
  simp only [pixel, he]
  decide

/-! ## The properties of the exact loop, for the loop as the program runs it -/

theorem roundHalfEven_neg (r : ℚ) : roundHalfEven (-r) = -roundHalfEven r := by
  have h0 : (⌊r⌋ : ℚ) ≤ r := Int.floor_le r
  have h1 : r < ⌊r⌋ + 1 := Int.lt_floor_add_one r
  rcases eq_or_lt_of_le h0 with heq | hlt
  · have hf : ⌊-r⌋ = -⌊r⌋ := Int.floor_eq_iff.mpr ⟨by push_cast; linarith, by push_cast; linarith⟩
    unfold roundHalfEven
    rw [hf, if_pos (by push_cast; linarith), if_pos (by linarith)]
  · have hf : ⌊-r⌋ = -⌊r⌋ - 1 :=
      Int.floor_eq_iff.mpr ⟨by push_cast; linarith, by push_cast; linarith⟩
    unfold roundHalfEven
    rw [hf]
    rcases lt_trichotomy (r - ⌊r⌋) (1 / 2) with hl | he | hg
    · rw [if_neg (by push_cast; linarith), if_pos (by push_cast; linarith), if_pos hl]
      omega
    · have e1 : ¬ (-r - ((-⌊r⌋ - 1 : ℤ) : ℚ) < 1 / 2) := by push_cast; linarith
      have e2 : ¬ ((1 : ℚ) / 2 < -r - ((-⌊r⌋ - 1 : ℤ) : ℚ)) := by push_cast; linarith
      have e3 : ¬ (r - ⌊r⌋ < 1 / 2) := by linarith
      have e4 : ¬ ((1 : ℚ) / 2 < r - ⌊r⌋) := by linarith
      rw [if_neg e1, if_neg e2, if_neg e3, if_neg e4]
      split_ifs <;> omega
    · rw [if_pos (by push_cast; linarith), if_neg (by linarith), if_pos hg]
      omega

theorem fl_neg (q : ℚ) : fl (-q) = -fl q := by
  have hb : binade (-q) = binade q := by
    unfold binade
    rw [abs_neg]
  unfold fl
  rw [hb, neg_div, roundHalfEven_neg]
  push_cast
  ring

theorem escapeTimeF_eq_of_first_failure (x0 y0 : ℚ) (cap m : Nat)
    (h1 : ∀ k, k < m → loopCondF cap ((loopBodyF x0 y0)^[k] initState) = true)
    (h2 : loopCondF cap ((loopBodyF x0 y0)^[m] initState) = false) :
    escapeTimeF x0 y0 cap = m := by
  obtain ⟨hm, hk, hf⟩ := escapeTimeF_iterate x0 y0 cap
  rw [hm] at hf
  rcases Nat.lt_trichotomy (escapeTimeF x0 y0 cap) m with hlt | heq | hgt
  · have h := h1 _ hlt
    rw [hf] at h
    exact absurd h (by decide)
  · exact heq
  · have h := hk m hgt
    rw [h2] at h
    exact absurd h (by decide)

theorem iterateF_origin (k : Nat) :
    (loopBodyF 0 0)^[k] initState = { x := 0, y := 0, iteration := k } := by
  induction k with
  | zero => norm_num [initState]
  | succ k ih =>
    rw [Function.iterate_succ_apply', ih]
    simp [loopBodyF, fl_zero]

/-- The program's loop returns the cap for the origin, for every cap. -/
theorem escapeTimeF_origin (cap : Nat) : escapeTimeF 0 0 cap = cap := by
  apply escapeTimeF_eq_of_first_failure
  · intro k hk
    rw [iterateF_origin, loopCondF_true_iff]
    norm_num [normSqF, fl_zero]
    exact hk
  · rw [iterateF_origin, loopCondF_false_iff]
    exact Or.inr (Nat.le_refl cap)

theorem iterateF_conj (x0 y0 : ℚ) (k : Nat) :
    (loopBodyF x0 (-y0))^[k] initState
      = { x := ((loopBodyF x0 y0)^[k] initState).x,
          y := -((loopBodyF x0 y0)^[k] initState).y,
          iteration := ((loopBodyF x0 y0)^[k] initState).iteration } := by
  induction k with
  | zero => norm_num [initState]
  | succ k ih =>
    rw [Function.iterate_succ_apply', Function.iterate_succ_apply', ih]
    simp only [loopBodyF, LoopState.mk.injEq, and_true]
    constructor
    · rw [neg_mul_neg]
    · rw [mul_neg, fl_neg, ← neg_add, fl_neg]

/-- The program's loop returns the same count for `(x0, -y0)` as for `(x0, y0)`:
rounding to nearest is symmetric in the sign. -/
theorem escapeTimeF_conj (x0 y0 : ℚ) (cap : Nat) :
    escapeTimeF x0 (-y0) cap = escapeTimeF x0 y0 cap := by
  have hc : ∀ k, loopCondF cap ((loopBodyF x0 (-y0))^[k] initState)
      = loopCondF cap ((loopBodyF x0 y0)^[k] initState) := by
    intro k
    rw [iterateF_conj]
    simp only [loopCondF, neg_mul_neg]
  obtain ⟨hm, hk, hf⟩ := escapeTimeF_iterate x0 y0 cap
  rw [hm] at hf
  apply escapeTimeF_eq_of_first_failure
  · intro k hlt
    rw [hc]
    exact hk k hlt
  · rw [hc]
    exact hf

/-- The program's loop with cap `N <= M` returns the minimum of `N` and its result
with cap `M`. -/
theorem escapeTimeF_cap_mono (x0 y0 : ℚ) (N M : Nat) :
    N ≤ M → escapeTimeF x0 y0 N = min N (escapeTimeF x0 y0 M) := by
  intro _
  obtain ⟨hm, hk, hf⟩ := escapeTimeF_iterate x0 y0 M
  rw [hm] at hf
  apply escapeTimeF_eq_of_first_failure
  · intro k hlt
    have h := hk k (lt_of_lt_of_le hlt (Nat.min_le_right _ _))
    rw [loopCondF_true_iff, iterateF_iteration] at h ⊢
    have hkN : k < N := lt_of_lt_of_le hlt (Nat.min_le_left _ _)
    simp only [initState, Nat.zero_add] at h ⊢
    exact ⟨h.1, hkN⟩
  · rw [loopCondF_false_iff, iterateF_iteration]
    simp only [initState, Nat.zero_add]
    rcases Nat.le_total N (escapeTimeF x0 y0 M) with hle | hle
    · rw [Nat.min_eq_left hle]
      exact Or.inr (Nat.le_refl N)
    · rw [Nat.min_eq_right hle]
      rw [loopCondF_false_iff, iterateF_iteration] at hf
      simp only [initState, Nat.zero_add] at hf
      rcases hf with h | h
      · exact Or.inl h
      · exact Or.inr (by omega)

/-! ## Points outside the escape radius, for the loop as the program runs it -/

theorem floor_le_roundHalfEven (r : ℚ) : ⌊r⌋ ≤ roundHalfEven r := by
  unfold roundHalfEven
  split_ifs <;> omega

theorem le_roundHalfEven (r : ℚ) (n : ℤ) (h : (n : ℚ) ≤ r) : n ≤ roundHalfEven r :=
  le_trans (Int.le_floor.mpr h) (floor_le_roundHalfEven r)

theorem sub_half_le_roundHalfEven (r : ℚ) : r - 1 / 2 ≤ (roundHalfEven r : ℚ) := by
  have h1 : r < ⌊r⌋ + 1 := Int.lt_floor_add_one r
  unfold roundHalfEven
  split_ifs with ha hb hc
  · linarith
  · push_cast; linarith
  · linarith
  · push_cast; linarith

theorem fl_nonneg (q : ℚ) (h : 0 ≤ q) : 0 ≤ fl q := by
  unfold fl
  have hu : (0 : ℚ) < 2 ^ (binade q - 52) := zpow_pos (by norm_num) _
  have hr : (0 : ℤ) ≤ roundHalfEven (q / 2 ^ (binade q - 52)) :=
    le_roundHalfEven _ 0 (by push_cast; exact div_nonneg h (le_of_lt hu))
  have hr' : (0 : ℚ) ≤ (roundHalfEven (q / 2 ^ (binade q - 52)) : ℚ) := by exact_mod_cast hr
  exact mul_nonneg hr' (le_of_lt hu)

theorem zpow_le_fl (q : ℚ) (k : ℤ) (hk : -1022 ≤ k) (h : (2 : ℚ) ^ k ≤ q) :
    (2 : ℚ) ^ k ≤ fl q := by
  have hq : 0 < q := lt_of_lt_of_le (zpow_pos (by norm_num) k) h
  have habs : |q| = q := abs_of_pos hq
  have hlog : k ≤ Int.log 2 q :=
    (Int.zpow_le_iff_le_log (by norm_num : 1 < 2) hq).mp (by exact_mod_cast h)
  have hb : binade q = Int.log 2 q := by
    unfold binade
    rw [habs]
    exact max_eq_left (by omega)
  have hle : (2 : ℚ) ^ (Int.log 2 q) ≤ q := by
    have := Int.zpow_log_le_self (by norm_num : 1 < 2) hq
    exact_mod_cast this
  have hu : (0 : ℚ) < 2 ^ (Int.log 2 q - 52) := zpow_pos (by norm_num) _
  have h52 : (2 : ℚ) ^ (52 : ℤ) = 4503599627370496 := by norm_num
  have hsplit : (2 : ℚ) ^ (Int.log 2 q) = 4503599627370496 * 2 ^ (Int.log 2 q - 52) := by
    rw [← h52, ← zpow_add₀ (by norm_num : (2 : ℚ) ≠ 0)]
    congr 1
    omega
  have hr : ((4503599627370496 : ℤ) : ℚ) ≤ q / 2 ^ (Int.log 2 q - 52) := by
    rw [le_div_iff₀ hu]
    push_cast
    rw [← hsplit]
    exact hle
  have hR := le_roundHalfEven _ _ hr
  have hR' : (4503599627370496 : ℚ) ≤ (roundHalfEven (q / 2 ^ (Int.log 2 q - 52)) : ℚ) := by
    exact_mod_cast hR
  unfold fl
  rw [hb]
  calc (2 : ℚ) ^ k ≤ 2 ^ (Int.log 2 q) := zpow_le_zpow_right₀ (by norm_num) hlog
    _ = 4503599627370496 * 2 ^ (Int.log 2 q - 52) := hsplit
    _ ≤ (roundHalfEven (q / 2 ^ (Int.log 2 q - 52)) : ℚ) * 2 ^ (Int.log 2 q - 52) :=
        mul_le_mul_of_nonneg_right hR' (le_of_lt hu)

theorem roundHalfEven_ge_of_even (r : ℚ) (N : ℤ) (hN : N % 2 = 0)
    (h : (N : ℚ) - 1 / 2 ≤ r) : N ≤ roundHalfEven r := by
  rcases le_or_lt (N : ℚ) r with hle | hlt
  · exact le_roundHalfEven r N hle
  · have hf : ⌊r⌋ = N - 1 :=
      Int.floor_eq_iff.mpr ⟨by push_cast; linarith, by push_cast; linarith⟩
    unfold roundHalfEven
    rw [hf, if_neg (by push_cast; linarith)]
    split_ifs <;> omega

theorem four_le_fl (s : ℚ) (h : 4 - 1 / 2 ^ 52 ≤ s) : 4 ≤ fl s := by
  rcases le_or_lt 4 s with h4 | h4
  · have := zpow_le_fl s 2 (by norm_num) (by norm_num; exact h4)
    norm_num at this
    exact this
  · have hs : 0 < s := by
      have : (0 : ℚ) < 4 - 1 / 2 ^ 52 := by norm_num
      linarith
    have hb : binade s = 1 :=
      binade_eq s 1 (by norm_num) (by rw [abs_of_pos hs]; norm_num at h ⊢; linarith)
        (by rw [abs_of_pos hs]; norm_num; exact h4)
    have hR : (9007199254740992 : ℤ) ≤ roundHalfEven (s / 2 ^ ((1 : ℤ) - 52)) := by
      apply roundHalfEven_ge_of_even _ _ (by decide)
      norm_num at h ⊢
      linarith
    have hR' : (9007199254740992 : ℚ) ≤ (roundHalfEven (s / 2 ^ ((1 : ℤ) - 52)) : ℚ) := by
      exact_mod_cast hR
    unfold fl
    rw [hb]
    have hu : (2 : ℚ) ^ ((1 : ℤ) - 52) = 1 / 2251799813685248 := by norm_num
    rw [hu] at hR' ⊢
    linarith

theorem binade_le_zero (b : ℚ) (hb0 : 0 < b) (hb2 : b < 2) :
    binade b ≤ 0 ∧ -1022 ≤ binade b := by
  have h := (Int.lt_zpow_iff_log_lt (by norm_num : 1 < 2) hb0).mp
    (by norm_num; exact hb2 : b < ((2 : ℕ) : ℚ) ^ (1 : ℤ))
  unfold binade
  rw [abs_of_pos hb0]
  constructor
  · exact max_le (by omega) (by norm_num)
  · exact le_max_right _ _

theorem fl_add_fl_ge_aux (a b : ℚ) (ha2 : 2 ≤ a) (ha4 : a < 4) (hb0 : 0 < b) (hb2 : b < 2)
    (h : 4 ≤ a + b) : 4 - 1 / 2 ^ 52 ≤ fl a + fl b := by
  have ha0 : 0 < a := by linarith
  have hba : binade a = 1 :=
    binade_eq a 1 (by norm_num) (by rw [abs_of_pos ha0]; norm_num; exact ha2)
      (by rw [abs_of_pos ha0]; norm_num; exact ha4)
  obtain ⟨heb, heb'⟩ := binade_le_zero b hb0 hb2
  obtain ⟨n, hn⟩ : ∃ n : ℕ, binade b = -(n : ℤ) := ⟨(-binade b).toNat, by omega⟩
  have hT : (0 : ℚ) < 2 ^ n := pow_pos (by norm_num) n
  have hub : (2 : ℚ) ^ (-(n : ℤ) - 52) = 1 / (2 ^ n * 4503599627370496) := by
    rw [sub_eq_add_neg, zpow_add₀ (by norm_num : (2 : ℚ) ≠ 0), zpow_neg, zpow_natCast]
    norm_num
    rw [mul_comm]
  have hua : (2 : ℚ) ^ ((1 : ℤ) - 52) = 1 / 2251799813685248 := by norm_num
  have hMa := sub_half_le_roundHalfEven (a / 2 ^ ((1 : ℤ) - 52))
  have hMb := sub_half_le_roundHalfEven (b / 2 ^ (-(n : ℤ) - 52))
  unfold fl
  rw [hba, hn]
  generalize roundHalfEven (a / 2 ^ ((1 : ℤ) - 52)) = Ma at hMa ⊢
  generalize roundHalfEven (b / 2 ^ (-(n : ℤ) - 52)) = Mb at hMb ⊢
  rw [hua] at hMa ⊢
  rw [hub] at hMb ⊢
  have hMa' : a * 2251799813685248 - 1 / 2 ≤ (Ma : ℚ) := by
    rw [div_div_eq_mul_div, div_one] at hMa
    exact hMa
  have hMb' : b * (2 ^ n * 4503599627370496) - 1 / 2 ≤ (Mb : ℚ) := by
    rw [div_div_eq_mul_div, div_one] at hMb
    exact hMb
  have hprod : (a * 2251799813685248 - 1 / 2) * (2 * 2 ^ n) ≤ (Ma : ℚ) * (2 * 2 ^ n) :=
    mul_le_mul_of_nonneg_right hMa' (by positivity)
  have hab : 4 * ((2 : ℚ) ^ n * 4503599627370496) ≤ (a + b) * (2 ^ n * 4503599627370496) :=
    mul_le_mul_of_nonneg_right h (by positivity)
  have hZ : ((4 * 2 ^ n * 4503599627370496 - 2 ^ n - 1 : ℤ) : ℚ)
      < ((Ma * (2 * 2 ^ n) + Mb : ℤ) : ℚ) := by
    push_cast
    linarith
  have hZ' : (4 * 2 ^ n * 4503599627370496 - 2 ^ n : ℤ) ≤ Ma * (2 * 2 ^ n) + Mb := by
    have := Int.cast_lt.mp hZ
    omega
  have hZq : (4 * 2 ^ n * 4503599627370496 - 2 ^ n : ℚ) ≤ (Ma : ℚ) * (2 * 2 ^ n) + Mb := by
    exact_mod_cast hZ'
  have hdiv : (4 * 2 ^ n * 4503599627370496 - 2 ^ n : ℚ) / (2 ^ n * 4503599627370496)
      ≤ ((Ma : ℚ) * (2 * 2 ^ n) + Mb) / (2 ^ n * 4503599627370496) :=
    div_le_div_of_nonneg_right hZq (by positivity)
  have e1 : (4 * 2 ^ n * 4503599627370496 - 2 ^ n : ℚ) / (2 ^ n * 4503599627370496)
      = 4 - 1 / 2 ^ 52 := by
    field_simp
    ring
  have e2 : ((Ma : ℚ) * (2 * 2 ^ n) + Mb) / (2 ^ n * 4503599627370496)
      = (Ma : ℚ) * (1 / 2251799813685248) + Mb * (1 / (2 ^ n * 4503599627370496)) := by
    field_simp
    ring
  rw [e1, e2] at hdiv
  exact hdiv

theorem fl_add_fl_ge (a b : ℚ) (ha : 0 ≤ a) (hb : 0 ≤ b) (h : 4 ≤ a + b) :
    4 - 1 / 2 ^ 52 ≤ fl a + fl b := by
  have h2 : (2 : ℚ) ^ (1 : ℤ) = 2 := by norm_num
  have h4 : (2 : ℚ) ^ (2 : ℤ) = 4 := by norm_num
  have hpos : (0 : ℚ) < 1 / 2 ^ 52 := by norm_num
  rcases le_or_lt 4 a with ha4 | ha4
  · have := zpow_le_fl a 2 (by norm_num) (by rw [h4]; exact ha4)
    have := fl_nonneg b hb
    linarith
  rcases le_or_lt 4 b with hb4 | hb4
  · have := zpow_le_fl b 2 (by norm_num) (by rw [h4]; exact hb4)
    have := fl_nonneg a ha
    linarith
  rcases le_or_lt 2 a with ha2 | ha2
  · rcases le_or_lt 2 b with hb2 | hb2
    · have := zpow_le_fl a 1 (by norm_num) (by rw [h2]; exact ha2)
      have := zpow_le_fl b 1 (by norm_num) (by rw [h2]; exact hb2)
      linarith
    · exact fl_add_fl_ge_aux a b ha2 ha4 (by linarith) hb2 h
  · have hb2 : 2 ≤ b := by linarith
    have := fl_add_fl_ge_aux b a hb2 hb4 (by linarith) ha2 (by linarith)
    linarith

/-- The program's loop with cap 1000 returns 1 for every binary64 sample point that is
on or outside the escape radius (`x0^2 + y0^2 >= 4` exactly): the rounded sum of the
rounded squares is then at least 4.0. -/
theorem escapeTimeF_outside_eq_one (x0 y0 : ℚ) (hx : fl x0 = x0) (hy : fl y0 = y0)
    (h : 4 ≤ x0 ^ 2 + y0 ^ 2) : escapeTimeF x0 y0 1000 = 1 := by
  apply escapeTimeF_of_outside x0 y0 1000 (by decide) hx hy
  unfold normSqF
  apply four_le_fl
  apply fl_add_fl_ge _ _ (mul_self_nonneg x0) (mul_self_nonneg y0)
  rw [← pow_two, ← pow_two]
  exact h

end Mandelbrot
